import Mathlib

/-!
# Verification of the Azure work-item reporting scripts

Shallow embedding of the reusable core of `blocked_paused.py` and
`workitems_column_times.py`: AreaPath-to-team resolution, revision-timeline
normalization, the tag-transition extractor and the column-dwell extractor.

Modelling conventions:
* ISO-8601 timestamp strings are modelled as `Option Nat` (seconds; `none`
  models the empty/missing string).  Lexicographic order on well-formed
  ISO strings agrees with numeric order, and the empty string sorts first,
  which `none` does under `dateLe` below.
* `datetime.strptime(cd[:19], ...) - timedelta(hours=3)` is modelled as
  subtracting 10800 seconds over `Int`.
* Python `set`s of strings are modelled as deduplicated `List String`s;
  Python set iteration order is unspecified, so only order-insensitive
  facts (counts, membership) are proved about event sequences.
* Python dicts are modelled as association lists with first-match lookup;
  insertion replaces an existing binding in place.
-/

namespace Azure

/-! ### Character-wise string primitives

The Python string operations the scripts use (`split`, `strip`, `upper`,
`lower`, `startswith`, `in`) are modelled character-wise so that every
definition evaluates by kernel reduction on concrete inputs. -/

/-- Worker for `splitChar`: splits a character list at every occurrence
of the separator, `acc` holding the current chunk reversed. -/
def splitCharAux (c : Char) : List Char → List Char → List (List Char)
  | [], acc => [acc.reverse]
  | x :: xs, acc =>
    if x = c then acc.reverse :: splitCharAux c xs []
    else splitCharAux c xs (x :: acc)

/-- Python `s.split(sep)` for a one-character separator (`'\\'` and `';'`
are the only separators the scripts use). -/
def splitChar (c : Char) (s : String) : List String :=
  (splitCharAux c s.data []).map String.mk

/-- ASCII whitespace, as stripped by Python `str.strip()`. -/
def isWs (c : Char) : Bool :=
  c = ' ' ∨ c = '\t' ∨ c = '\n' ∨ c = '\r' ∨ c = '\x0b' ∨ c = '\x0c'

/-- Python `str.strip()`. -/
def trimStr (s : String) : String :=
  String.mk (((s.data.dropWhile isWs).reverse.dropWhile isWs).reverse)

/-- Python `str.upper()` on one ASCII character. -/
def upChar (c : Char) : Char :=
  if 'a' ≤ c ∧ c ≤ 'z' then Char.ofNat (c.toNat - 32) else c

/-- Python `str.lower()` on one ASCII character. -/
def lowChar (c : Char) : Char :=
  if 'A' ≤ c ∧ c ≤ 'Z' then Char.ofNat (c.toNat + 32) else c

/-- Python `str.upper()`. -/
def strUpper (s : String) : String := String.mk (s.data.map upChar)

/-- Python `str.lower()`. -/
def strLower (s : String) : String := String.mk (s.data.map lowChar)

/-- Python `s.startswith(p)`. -/
def strStartsWith (s p : String) : Bool := p.data.isPrefixOf s.data

/-- Worker for `strContains`: does `p` occur as a contiguous run in the
character list? -/
def listInfix (p : List Char) : List Char → Bool
  | [] => p.isEmpty
  | x :: xs => p.isPrefixOf (x :: xs) || listInfix p xs

/-- Python substring containment `p in s`. -/
def strContains (s p : String) : Bool := listInfix p.data s.data

/-- One revision snapshot of a work item, with the fields the scripts
select (`System.ChangedDate`, `System.Tags`, `System.State`,
`System.AreaPath`, `Microsoft.VSTS.Common.ValueArea`,
`Microsoft.VSTS.Common.ClosedDate`, `System.BoardColumn`,
`System.BoardColumnDone`, `System.WorkItemType`, `System.Title`). -/
structure Rev where
  rev : Nat
  changedDate : Option Nat
  tags : String
  state : String
  areaPath : String
  valueArea : String
  closedDate : Option Nat
  workItemType : String
  title : String
  boardColumn : String
  boardColumnDone : Bool
  deriving Repr, DecidableEq, Inhabited

/-- A preference map `prefs_map`: exact AreaPath string to the ordered list
of teams that declared it (`prefs_map.setdefault(val, []).append(team)`). -/
abbrev PrefsMap := List (String × List String)

/-- Python truthiness of an optional string (`None` and `""` are falsy). -/
def strFalsy (o : Option String) : Bool := o.getD "" = ""

/-- Team resolution as inlined in `blocked_paused.py` (both the
`actual_team` block, lines 134-143, and the per-revision `team_name`
block, lines 161-170):

    parts = team_source.split('\\')
    team_name = prefs_map.get(team_source, [None])[0] if team_source in prefs_map else None
    for seg in parts[::-1]:
        if not team_name and seg in all_teams:
            team_name = seg
    if not team_name:
        team_name = project

Note the exact-match branch takes the *first* team of the stored list even
when the entry is ambiguous (maps to several teams). -/
def team_name_bp (prefs_map : PrefsMap) (all_teams : List String)
    (project : String) (team_source : String) : String :=
  let parts := splitChar '\\' team_source
  let init : Option String :=
    match prefs_map.lookup team_source with
    | some l => l.head?
    | none => none
  let t := parts.reverse.foldl
    (fun acc seg => if strFalsy acc ∧ all_teams.contains seg then some seg else acc)
    init
  if strFalsy t then project else t.getD project

/-- The positional fallback chain of `workitems_column_times.py`
(lines 149-159): third, then second, then first segment of the 0-based
split, else the project. -/
def fallback_wc (parts : List String) (all_teams : List String)
    (project : String) : String :=
  if 3 ≤ parts.length ∧ all_teams.contains (parts.getD 2 "") then parts.getD 2 ""
  else if 2 ≤ parts.length ∧ all_teams.contains (parts.getD 1 "") then parts.getD 1 ""
  else if 1 ≤ parts.length ∧ all_teams.contains (parts.getD 0 "") then parts.getD 0 ""
  else project

/-- Team resolution of `workitems_column_times.py` (lines 144-159):

    if area in prefs_map and len(prefs_map[area]) == 1:
        team_name = prefs_map[area][0]
    elif len(parts) >= 3 and parts[2] in all_teams: ...
    elif len(parts) >= 2 and parts[1] in all_teams: ...
    elif len(parts) >= 1 and parts[0] in all_teams: ...
    else: team_name = project -/
def team_name_wc (prefs_map : PrefsMap) (all_teams : List String)
    (project : String) (area : String) : String :=
  let parts := splitChar '\\' area
  match prefs_map.lookup area with
  | some l => if l.length = 1 then l.headD project else fallback_wc parts all_teams project
  | none => fallback_wc parts all_teams project

/-! ## Timeline normalization -/

/-- `blocked_paused.py` line 126: `revs = sorted(revs, key=lambda x: x['rev'])`.
Python `sorted` is a stable sort by the given key; it is modelled by the
stable `insertionSort`. -/
def sortRevsBP (revs : List Rev) : List Rev :=
  List.insertionSort (fun a b => a.rev ≤ b.rev) revs

/-- Order on the raw `System.ChangedDate` sort key: a missing date is the
empty string, which sorts before every date. -/
def dateLe (a b : Option Nat) : Bool :=
  match a, b with
  | none, _ => true
  | some _, none => false
  | some x, some y => x ≤ y

/-- `workitems_column_times.py` lines 124-127:
`revs = sorted(..., key=lambda x: x["fields"].get("System.ChangedDate",""))`.
The sort key is the ChangedDate string, not the revision number. -/
def sortRevsWC (revs : List Rev) : List Rev :=
  List.insertionSort (fun a b => dateLe a.changedDate b.changedDate = true) revs

/-! ## Tag-transition extractor (`blocked_paused.py`) -/

/-- Tag-set ingestion (`blocked_paused.py` lines 154-156):
`set(t.strip().upper() for t in flds.get('System.Tags','').split(';') if t.strip())`.
The Python set is modelled as a deduplicated list. -/
def tagSetOf (tags : String) : List String :=
  ((((splitChar ';' tags).map trimStr).filter (fun t => t ≠ "")).map strUpper).dedup

/-- Direction of a transition event. -/
inductive Action where
  | added
  | removed
  deriving Repr, DecidableEq

/-- The PAUSED singleton-group part of event generation
(`blocked_paused.py` lines 175-176 and 184-186): at most one event, with
the `Added` branch tested first. -/
def pausedEvents (tag_set prev_tags : List String) : List (String × Action) :=
  let current_paused : List String := if tag_set.contains "PAUSED" then ["PAUSED"] else []
  let prev_paused : List String := if prev_tags.contains "PAUSED" then ["PAUSED"] else []
  let pDiffAdd := current_paused.filter (fun t => ¬ prev_paused.contains t)
  let pDiffRem := prev_paused.filter (fun t => ¬ current_paused.contains t)
  if pDiffAdd ≠ [] ∨ pDiffRem ≠ [] then
    [("PAUSED", if pDiffAdd ≠ [] then Action.added else Action.removed)]
  else []

/-- Event generation for one consecutive revision pair
(`blocked_paused.py` lines 172-186): BLOCKED*-prefixed tags are diffed as
a group (one event per changed tag), followed by the PAUSED singleton
group. -/
def eventsFor (tag_set prev_tags : List String) : List (String × Action) :=
  let current_blocked := tag_set.filter (fun t => strStartsWith t "BLOCKED")
  let prev_blocked := prev_tags.filter (fun t => strStartsWith t "BLOCKED")
  let addedB := current_blocked.filter (fun t => ¬ prev_blocked.contains t)
  let removedB := prev_blocked.filter (fun t => ¬ current_blocked.contains t)
  addedB.map (fun t => (t, Action.added)) ++
    removedB.map (fun t => (t, Action.removed)) ++
    pausedEvents tag_set prev_tags

/-- Read-only per-item context of `process_revisions` (`blocked_paused.py`):
the function arguments plus the values computed once from the last
revision before the loop (lines 129-143). -/
structure BpCtx where
  project : String
  wid : String
  prefs_map : PrefsMap
  all_teams : List String
  start_iso : Nat
  closed_date_global : Option Nat
  actual_state : String
  actual_area : String
  actual_value_area : String
  actual_team : String
  deriving Repr

/-- One output row of `blocked_paused.py` (lines 190-210). -/
structure BpRow where
  «Project» : String
  «Team» : String
  «WorkItemId» : String
  «Revision» : Nat
  «ChangedDate» : Nat
  «WorkItemType» : String
  «Title» : String
  «AreaPath» : String
  «ValueArea» : String
  «State» : String
  «Tags» : String
  «ClosedDate» : Option Nat
  «ActualState» : String
  «ActualAreaPath» : String
  «ActualTeam» : String
  «ActualValueArea» : String
  «Keyword» : String
  «Tag» : String
  «Action» : Action
  deriving Repr, DecidableEq

/-- The rows emitted for the events of one in-window revision
(`blocked_paused.py` lines 161-210). -/
def bpRowsFor (ctx : BpCtx) (r : Rev) (changed : Nat) (tag_set : List String)
    (prev_tags : List String) : List BpRow :=
  let team_source := if ctx.actual_area ≠ "" then ctx.actual_area else r.areaPath
  let team := team_name_bp ctx.prefs_map ctx.all_teams ctx.project team_source
  (eventsFor tag_set prev_tags).map (fun ev =>
    { «Project» := ctx.project
      «Team» := team
      «WorkItemId» := ctx.wid
      «Revision» := r.rev
      «ChangedDate» := changed
      «WorkItemType» := r.workItemType
      «Title» := r.title
      «AreaPath» := r.areaPath
      «ValueArea» := ctx.actual_value_area
      «State» := r.state
      «Tags» := String.intercalate ";" (List.insertionSort (· ≤ ·) tag_set)
      «ClosedDate» := match r.closedDate with
        | some c => some c
        | none => ctx.closed_date_global
      «ActualState» := ctx.actual_state
      «ActualAreaPath» := ctx.actual_area
      «ActualTeam» := ctx.actual_team
      «ActualValueArea» := ctx.actual_value_area
      «Keyword» := if strStartsWith ev.1 "BLOCKED" then "BLOCKED" else ev.1
      «Tag» := if strStartsWith ev.1 "BLOCKED" then ev.1 else ""
      «Action» := ev.2 })

/-- The revision loop of `process_revisions` (`blocked_paused.py`
lines 145-211), carrying `prev_tags` explicitly; returns the emitted rows
together with the final value of `prev_tags`:

    for rev in revs:
        changed = flds.get('System.ChangedDate', '')
        if not changed or changed < start_iso: continue
        tag_set = set(...)
        if prev_tags is None: prev_tags = tag_set; continue
        ... emit rows ...
        prev_tags = tag_set -/
def bpLoop (ctx : BpCtx) (prev_tags : Option (List String)) :
    List Rev → List BpRow × Option (List String)
  | [] => ([], prev_tags)
  | r :: rest =>
    match r.changedDate with
    | none => bpLoop ctx prev_tags rest
    | some changed =>
      if changed < ctx.start_iso then bpLoop ctx prev_tags rest
      else
        let tag_set := tagSetOf r.tags
        match prev_tags with
        | none => bpLoop ctx (some tag_set) rest
        | some prev =>
          let rows := bpRowsFor ctx r changed tag_set prev
          let next := bpLoop ctx (some tag_set) rest
          (rows ++ next.1, next.2)

/-- `process_revisions` of `blocked_paused.py` restricted to its pure core
(the paginated fetch is an external collaborator; `revs` is its result):
empty-check, sort by revision number, extraction of the `actual_*` context
from the last revision, then the revision loop. -/
def process_revisions (wid project : String) (prefs_map : PrefsMap)
    (all_teams : List String) (start_iso : Nat)
    (closed_date_global : Option Nat) (revs0 : List Rev) : List BpRow :=
  match sortRevsBP revs0 with
  | [] => []
  | _ :: _ =>
    let revs := sortRevsBP revs0
    let lastR := revs.getLastD default
    let actual_area := lastR.areaPath
    -- Python: `actual_team_source = actual_area or ''`, the identity on strings
    let actual_team_source := actual_area
    let ctx : BpCtx :=
      { project := project
        wid := wid
        prefs_map := prefs_map
        all_teams := all_teams
        start_iso := start_iso
        closed_date_global := closed_date_global
        actual_state := lastR.state
        actual_area := actual_area
        actual_value_area := lastR.valueArea
        actual_team := team_name_bp prefs_map all_teams project actual_team_source }
    (bpLoop ctx none revs).1

/-! ## Column-dwell extractor (`workitems_column_times.py`) -/

/-- A board as consumed by the split-column configuration builder:
its name and its columns as `(name, isSplit)` pairs. -/
structure Board where
  name : String
  columns : List (String × Bool)
  deriving Repr, DecidableEq

/-- The split-column configuration: a dict keyed by
`(board name, column name, team name)` triples. -/
abbrev SplitMap := List ((String × String × String) × Bool)

/-- Python dict assignment `m[k] = v`: replace an existing binding in
place, else append. -/
def dictInsert (m : SplitMap) (k : String × String × String) (v : Bool) :
    SplitMap :=
  if (m.lookup k).isSome then
    m.map (fun p => if p.1 = k then (k, v) else p)
  else m ++ [(k, v)]

/-- The inner column loop of the split-column configuration builder
(`workitems_column_times.py` lines 91-93): one dict entry per column of
the board, keyed by
`(board.lower().strip(), column.lower().strip(), team.lower().strip())`. -/
def addBoardCols (bn tn : String) (m : SplitMap) :
    List (String × Bool) → SplitMap
  | [] => m
  | c :: cs =>
    addBoardCols bn tn
      (dictInsert m (trimStr (strLower bn), trimStr (strLower c.1), trimStr (strLower tn)) c.2)
      cs

/-- The team loop of the split-column configuration builder
(`workitems_column_times.py` lines 84-94), threading the dict: for each
team, the *first* board whose lowercased name is `epics`, `features` or
`stories` contributes its columns (the `break` stops after that board). -/
def build_split_columns_from (m : SplitMap) :
    List (String × List Board) → SplitMap
  | [] => m
  | tb :: rest =>
    match tb.2.find? (fun b => ["epics", "features", "stories"].contains (strLower b.name)) with
    | some b => build_split_columns_from (addBoardCols b.name tb.1 m b.columns) rest
    | none => build_split_columns_from m rest

/-- Split-column configuration builder (`workitems_column_times.py`
lines 84-94), starting from the empty dict `split_columns = {}`. -/
def build_split_columns (teams : List (String × List Board)) : SplitMap :=
  build_split_columns_from [] teams

/-- SplitState computation (`workitems_column_times.py` lines 184 and 210):
`"Done" if split_columns.get(key, False) and entry_done else
("Doing" if split_columns.get(key, False) else "")`. -/
def splitStateOf (split_columns : SplitMap) (key : String × String × String)
    (entry_done : Bool) : String :=
  if ((split_columns.lookup key).getD false) ∧ entry_done then "Done"
  else if (split_columns.lookup key).getD false then "Doing"
  else ""

/-- Read-only per-item context of the dwell loop: the values computed from
the last revision (lines 131-165) plus the configuration. -/
structure WcCtx where
  project : String
  wid : String
  split_columns : SplitMap
  team_name : String
  title : String
  wi_type : String
  area : String
  closed_raw : Option Nat
  deriving Repr

/-- One output row of `workitems_column_times.py` (lines 187-201 and
212-226).  `Days` is `round((End-Start in seconds)/86400, 2)` of the same
pair in floating point; the interval itself is represented exactly by
`startTs`/`endTs` (seconds, after the -3h shift). -/
structure WcRow where
  «Project» : String
  «WorkItemID» : String
  «Team» : String
  «Title» : String
  «WorkItemType» : String
  «Board» : String
  «AreaPath» : String
  «Column» : String
  «SplitState» : String
  startTs : Int
  endTs : Int
  «ClosedDate» : Option Nat
  deriving Repr, DecidableEq

/-- `datetime.strptime(cd[:19], "%Y-%m-%dT%H:%M:%S") - timedelta(hours=3)`,
on a timestamp modelled in seconds. -/
def dtOf (cd : Nat) : Int := (cd : Int) - 10800

/-- The `Board` column of a row:
`"Epics" if wi_type=="Feature" and "Epic" in title else
("Features" if wi_type=="Feature" else "Stories")`.  Substring containment
`"Epic" in title` is expressed through `splitOn`. -/
def boardOf (wi_type title : String) : String :=
  if wi_type = "Feature" ∧ strContains title "Epic" then "Epics"
  else if wi_type = "Feature" then "Features"
  else "Stories"

/-- The area key used in SplitState lookups (lines 182 and 208):
`area.split("\\")[-1].strip().lower()`. -/
def areaKeyOf (area : String) : String :=
  strLower (trimStr ((splitChar '\\' area).getLastD ""))

/-- The open dwell state `(curr_col, entry_dt, entry_done)`. -/
structure DwellState where
  col : String
  entry : Int
  done : Bool
  deriving Repr, DecidableEq

/-- Builds one emitted row (shared by the loop body and the final
closing-date-bounded emission, which differ only in the key, the end
timestamp and the done flag used). -/
def mkWcRow (ctx : WcCtx) (s : DwellState) (key : String × String × String)
    (endTs : Int) : WcRow :=
  { «Project» := ctx.project
    «WorkItemID» := ctx.wid
    «Team» := ctx.team_name
    «Title» := ctx.title
    «WorkItemType» := ctx.wi_type
    «Board» := boardOf ctx.wi_type ctx.title
    «AreaPath» := ctx.area
    «Column» := s.col
    «SplitState» := splitStateOf ctx.split_columns key s.done
    startTs := s.entry
    endTs := endTs
    «ClosedDate» := ctx.closed_raw }

/-- The dwell loop (`workitems_column_times.py` lines 167-202), carrying
`(curr_col, entry_dt, entry_done)` explicitly; returns emitted rows and
the final state:

    for rev in revs:
        col = f.get("System.BoardColumn", ""); cd = f.get("System.ChangedDate","")
        if not col or not cd: continue
        dt = parse(cd[:19]) - 3h
        if curr_col is None: curr_col, entry_dt, entry_done = col, dt, done_flag; continue
        if col != curr_col or done_flag != entry_done:
            key = (col.lower(), curr_col.lower(), area_key); emit; reset state -/
def dwellLoop (ctx : WcCtx) (st : Option DwellState) :
    List Rev → List WcRow × Option DwellState
  | [] => ([], st)
  | r :: rest =>
    match r.changedDate with
    | none => dwellLoop ctx st rest
    | some cd =>
      if r.boardColumn = "" then dwellLoop ctx st rest
      else
        let dt := dtOf cd
        match st with
        | none => dwellLoop ctx (some ⟨r.boardColumn, dt, r.boardColumnDone⟩) rest
        | some s =>
          if r.boardColumn ≠ s.col ∨ r.boardColumnDone ≠ s.done then
            let key := (strLower r.boardColumn, strLower s.col, areaKeyOf ctx.area)
            let row := mkWcRow ctx s key dt
            let next := dwellLoop ctx (some ⟨r.boardColumn, dt, r.boardColumnDone⟩) rest
            (row :: next.1, next.2)
          else dwellLoop ctx st rest

/-- The dwell loop plus the final closing-date-bounded emission
(`workitems_column_times.py` lines 167-226):

    if curr_col and entry_dt and closed_str:
        dt_end = parse(closed_raw[:19]) - 3h
        key = (curr_col.lower(), curr_col.lower(), area_key); emit -/
def columnBlocks (ctx : WcCtx) (revs : List Rev) : List WcRow :=
  let rows := (dwellLoop ctx none revs).1
  let st := (dwellLoop ctx none revs).2
  rows ++
    (match st, ctx.closed_raw with
     | some s, some c =>
       if s.col ≠ "" then
         [mkWcRow ctx s (strLower s.col, strLower s.col, areaKeyOf ctx.area) (dtOf c)]
       else []
     | _, _ => [])

/-- `allowed_types` (`workitems_column_times.py` line 49). -/
def allowed_types : List String :=
  ["Feature", "User Story", "Spike", "Bug", "Fix", "Vulnerability"]

/-- Per-item processing of `workitems_column_times.py` (lines 124-226),
restricted to its pure core (the revision fetch is external): sort by the
ChangedDate string, read the last revision's fields, filter on
`allowed_types`, resolve the team, run the dwell loop and the final
emission. -/
def processItemWC (project wid : String) (prefs_map : PrefsMap)
    (all_teams : List String) (split_columns : SplitMap)
    (revs0 : List Rev) : List WcRow :=
  let revs := sortRevsWC revs0
  if revs.isEmpty then []
  else
    let lastR := revs.getLastD default
    if ¬ allowed_types.contains lastR.workItemType then []
    else
      let area := lastR.areaPath
      let ctx : WcCtx :=
        { project := project
          wid := wid
          split_columns := split_columns
          team_name := team_name_wc prefs_map all_teams project area
          title := lastR.title
          wi_type := lastR.workItemType
          area := area
          closed_raw := lastR.closedDate }
      columnBlocks ctx revs

/-! ## Derived notions used in the statements -/

/-- A revision passes the window filter of `blocked_paused.py` line 151
(`if not changed or changed < start_iso: continue`). -/
def inWindow (start_iso : Nat) (r : Rev) : Bool :=
  match r.changedDate with
  | none => false
  | some cd => start_iso ≤ cd

/-- A revision is valid for the dwell loop (`workitems_column_times.py`
line 173, `if not col or not cd: continue`): it carries a board column and
a changed date. -/
def validRev (r : Rev) : Bool :=
  r.boardColumn != "" && r.changedDate.isSome

/-- The `(column, done-flag)` chain of the valid revisions of a timeline. -/
def dwellChain (revs : List Rev) : List (String × Bool) :=
  (revs.filter validRev).map (fun r => (r.boardColumn, r.boardColumnDone))

/-- Number of adjacent changes along a chain, starting from a given state. -/
def countCh : (String × Bool) → List (String × Bool) → Nat
  | _, [] => 0
  | p, q :: rest => (if q ≠ p then 1 else 0) + countCh q rest

/-- Total duration, in seconds, of a list of dwell intervals
(each interval's duration is `End − Start`; the exported `Days` column is
this value over 86400, rounded). -/
def sumDur (rows : List WcRow) : Int :=
  (rows.map (fun r => r.endTs - r.startTs)).sum

/-- Data wellformedness comparison: a changed date is no later than a
closed date whenever both are present. -/
def cdLeClosed (a b : Option Nat) : Bool :=
  match a, b with
  | some x, some y => x ≤ y
  | _, _ => true

/-! ## Concrete fixtures for witnesses and counterexamples -/

/-- Builds a revision fixture with the given revision number, changed
date, tags, board column, done flag and closed date. -/
def mkRev (rv : Nat) (cd : Option Nat) (tg : String) (col : String)
    (dn : Bool) (cl : Option Nat) : Rev :=
  { rev := rv, changedDate := cd, tags := tg, state := "S",
    areaPath := "P\\A", valueArea := "", closedDate := cl,
    workItemType := "Bug", title := "t", boardColumn := col,
    boardColumnDone := dn }

/-- A per-item context fixture for the tag-transition loop. -/
def ctxBP0 : BpCtx :=
  { project := "PROJ", wid := "1", prefs_map := [], all_teams := [],
    start_iso := 1000, closed_date_global := none, actual_state := "S",
    actual_area := "P\\A", actual_value_area := "", actual_team := "PROJ" }

/-- A per-item context fixture for the dwell loop, with no closing date. -/
def ctxWC0 : WcCtx :=
  { project := "PROJ", wid := "1", split_columns := [], team_name := "PROJ",
    title := "t", wi_type := "Bug", area := "P\\A", closed_raw := none }

/-- A per-item context fixture for the dwell loop, closed at time 500. -/
def ctxWC1 : WcCtx :=
  { project := "PROJ", wid := "1", split_columns := [], team_name := "PROJ",
    title := "t", wi_type := "Bug", area := "P\\A", closed_raw := some 500 }

/-! ## Helper lemmas -/

/-- The reversed segment scan of `team_name_bp` never overwrites a truthy
accumulator (`if not team_name and seg in all_teams`). -/
theorem bp_scan_keep (teams : List String) (l : List String)
    (acc : Option String) (h : strFalsy acc = false) :
    l.foldl
      (fun acc seg => if strFalsy acc ∧ teams.contains seg then some seg else acc)
      acc = acc := by
  induction l with
  | nil => rfl
  | cons x xs ih =>
    simp only [List.foldl_cons, h, Bool.false_eq_true, false_and, if_false]
    exact ih

/-- The reversed segment scan of `team_name_bp` leaves the accumulator
unchanged when no scanned segment is a known team. -/
theorem bp_scan_no_team (teams : List String) (l : List String)
    (acc : Option String) (h : ∀ seg ∈ l, teams.contains seg = false) :
    l.foldl
      (fun acc seg => if strFalsy acc ∧ teams.contains seg then some seg else acc)
      acc = acc := by
  induction l generalizing acc with
  | nil => rfl
  | cons x xs ih =>
    simp only [List.foldl_cons, h x (List.mem_cons_self x xs), Bool.false_eq_true,
      and_false, if_false]
    exact ih acc (fun seg hs => h seg (List.mem_cons_of_mem x hs))

/-! ## C1: ambiguous exact matches -/

/-- C1, counterexample.  The claim says an ambiguous PreferenceMap entry
(two or more teams) is treated as no match by team resolution, which
falls through to the segment scan and never returns one of the ambiguous
teams.  In `blocked_paused.py` (lines 161-170) the exact-match branch is
`prefs_map.get(team_source, [None])[0]`, which returns the *first* of the
ambiguous teams: here the entry `"P\\X" ↦ ["T1", "T2"]` is ambiguous, the
fall-through result would be the project `"PROJ"` (no segment of `"P\\X"`
is a team), yet resolution returns the ambiguous team `"T1"`. -/
theorem C1_counterexample :
    team_name_bp [("P\\X", ["T1", "T2"])] ["T1", "T2"] "PROJ" "P\\X" = "T1"
      ∧ ("T1" : String) ≠ "PROJ" := by
  constructor
  · rfl
  · decide

/-- C1, amended: in `workitems_column_times.py` an ambiguous exact match
(an entry with two or more teams) is treated as no match and resolution
falls through to the positional segment scan; in `blocked_paused.py` an
ambiguous exact match is *not* treated as no match — resolution returns
the first team of the entry's list. -/
theorem C1_ambiguous_exact_match (prefs_map : PrefsMap)
    (all_teams : List String) (project area : String)
    (t : String) (ts : List String)
    (hl : prefs_map.lookup area = some (t :: ts)) (h2 : ts ≠ [])
    (ht : t ≠ "") :
    team_name_wc prefs_map all_teams project area
        = fallback_wc (splitChar '\\' area) all_teams project
      ∧ team_name_bp prefs_map all_teams project area = t := by
  constructor
  · have hlen : (t :: ts).length ≠ 1 := by
      simp only [List.length_cons, ne_eq, Nat.add_eq_right]
      intro h
      exact h2 (List.length_eq_zero.mp h)
    simp only [team_name_wc, hl, hlen, if_false]
  · have hfalsy : strFalsy (some t) = false := by
      simp [strFalsy, ht]
    simp only [team_name_bp, hl, List.head?_cons,
      bp_scan_keep all_teams _ (some t) hfalsy, hfalsy, Bool.false_eq_true,
      if_false, Option.getD_some]

/-- C1, witness: the amended statement at the ambiguous entry
`"P\\X" ↦ ["T1", "T2"]`. -/
theorem C1_witness :
    team_name_wc [("P\\X", ["T1", "T2"])] ["T1", "T2"] "PROJ" "P\\X"
        = fallback_wc (splitChar '\\' "P\\X") ["T1", "T2"] "PROJ"
      ∧ team_name_bp [("P\\X", ["T1", "T2"])] ["T1", "T2"] "PROJ" "P\\X" = "T1" :=
  C1_ambiguous_exact_match [("P\\X", ["T1", "T2"])] ["T1", "T2"] "PROJ" "P\\X"
    "T1" ["T2"] rfl (by decide) (by decide)

/-! ## C4: project fallback on total non-match -/

/-- C4 (confirmed).  When the AreaPath is not a key of the PreferenceMap
and none of its segments is a known team name, both resolution variants
(`workitems_column_times.py` lines 146-159 and `blocked_paused.py` lines
161-170) return the project identifier.  Resolution is total by
construction (both are plain functions of their inputs). -/
theorem C4_project_fallback (prefs_map : PrefsMap) (all_teams : List String)
    (project area : String)
    (hnk : prefs_map.lookup area = none)
    (hseg : ∀ seg ∈ splitChar '\\' area, all_teams.contains seg = false) :
    team_name_wc prefs_map all_teams project area = project
      ∧ team_name_bp prefs_map all_teams project area = project := by
  constructor
  · have hget : ∀ i : Nat, i < (splitChar '\\' area).length →
        all_teams.contains ((splitChar '\\' area).getD i "") = false := by
      intro i hi
      rw [List.getD_eq_getElem _ _ hi]
      exact hseg _ (List.getElem_mem hi)
    simp only [team_name_wc, hnk, fallback_wc]
    rw [if_neg, if_neg, if_neg]
    · rintro ⟨h1, hc⟩
      rw [hget 0 (by omega)] at hc
      exact Bool.false_ne_true hc
    · rintro ⟨h2, hc⟩
      rw [hget 1 (by omega)] at hc
      exact Bool.false_ne_true hc
    · rintro ⟨h3, hc⟩
      rw [hget 2 (by omega)] at hc
      exact Bool.false_ne_true hc
  · have hrev : ∀ seg ∈ (splitChar '\\' area).reverse, all_teams.contains seg = false := by
      intro seg hs
      exact hseg seg (List.mem_reverse.mp hs)
    simp only [team_name_bp, hnk,
      bp_scan_no_team all_teams _ none hrev]
    rfl

/-- C4, witness: the non-matching AreaPath `"A\\B\\C"` with team set
`{"T"}` resolves to the project in both variants. -/
theorem C4_witness :
    team_name_wc [("X", ["T"])] ["T"] "PROJ" "A\\B\\C" = "PROJ"
      ∧ team_name_bp [("X", ["T"])] ["T"] "PROJ" "A\\B\\C" = "PROJ" :=
  C4_project_fallback [("X", ["T"])] ["T"] "PROJ" "A\\B\\C" rfl (by decide)

/-! ## C7: timeline normalization sort keys -/

/-- C7, counterexample.  The claim says timeline normalization sorts by
revision number ascending in both scripts.  `workitems_column_times.py`
sorts by the ChangedDate string instead: for a revision pair whose
revision-number order disagrees with its date order, the normalized
timeline is not ascending in the revision number. -/
theorem C7_counterexample :
    (sortRevsWC [mkRev 5 (some 10) "" "" false none,
        mkRev 1 (some 20) "" "" false none]).map (fun r => r.rev) = [5, 1]
      ∧ ¬ List.Pairwise (fun a b => a.rev ≤ b.rev)
          (sortRevsWC [mkRev 5 (some 10) "" "" false none,
            mkRev 1 (some 20) "" "" false none]) := by
  constructor
  · decide
  · decide

/-- C7, amended: both scripts stably sort the raw revision sequence before
pairwise processing, but on different keys — `blocked_paused.py` by
revision number ascending, `workitems_column_times.py` by the raw
ChangedDate string (missing dates first).  Each result is a permutation
of the input, sorted by its own key. -/
theorem C7_sort_keys (l : List Rev) :
    (sortRevsBP l).Perm l
      ∧ List.Sorted (fun a b => a.rev ≤ b.rev) (sortRevsBP l)
      ∧ (sortRevsWC l).Perm l
      ∧ List.Sorted (fun a b => dateLe a.changedDate b.changedDate = true)
          (sortRevsWC l) := by
  haveI hbt : IsTotal Rev (fun a b => a.rev ≤ b.rev) :=
    ⟨fun a b => Nat.le_total a.rev b.rev⟩
  haveI hbr : IsTrans Rev (fun a b => a.rev ≤ b.rev) :=
    ⟨fun a b c hab hbc => Nat.le_trans hab hbc⟩
  haveI hwt : IsTotal Rev (fun a b => dateLe a.changedDate b.changedDate = true) := by
    constructor
    intro a b
    cases a.changedDate <;> cases b.changedDate <;> simp [dateLe] <;> omega
  haveI hwr : IsTrans Rev (fun a b => dateLe a.changedDate b.changedDate = true) := by
    constructor
    intro a b c hab hbc
    cases ha : a.changedDate <;> cases hb : b.changedDate <;> cases hc : c.changedDate <;>
      simp_all [dateLe] <;> omega
  exact ⟨List.perm_insertionSort _ l, List.sorted_insertionSort _ l,
    List.perm_insertionSort _ l, List.sorted_insertionSort _ l⟩

/-! ## C9: baseline-only first revision -/

/-- C9 (confirmed).  The first revision processed by the tag-transition
extractor only establishes the `prev_tags` baseline (`if prev_tags is
None: prev_tags = tag_set; continue`) and emits nothing; consequently a
timeline consisting of a single revision yields zero events, whether the
revision is inside or outside the date window. -/
theorem C9_single_revision (wid project : String) (prefs_map : PrefsMap)
    (all_teams : List String) (start_iso : Nat)
    (closed_date_global : Option Nat) (r : Rev) :
    process_revisions wid project prefs_map all_teams start_iso
      closed_date_global [r] = [] := by
  have hs : sortRevsBP [r] = [r] := rfl
  unfold process_revisions
  rw [hs]
  simp only [bpLoop]
  cases r.changedDate with
  | none => rfl
  | some changed =>
    by_cases h : changed < start_iso
    · simp [bpLoop, h]
    · simp [bpLoop, h]

/-! ## C10: split-column configuration keys and default -/

/-- A dict assignment adds at most the assigned key. -/
theorem keys_dictInsert (m : SplitMap) (k k' : String × String × String)
    (v : Bool) (h : k' ∈ (dictInsert m k v).map Prod.fst) :
    k' ∈ m.map Prod.fst ∨ k' = k := by
  unfold dictInsert at h
  split at h
  · rw [List.map_map] at h
    obtain ⟨p, hp, he⟩ := List.mem_map.mp h
    by_cases hpk : p.1 = k
    · right
      simpa [Function.comp, hpk] using he.symm
    · left
      simp only [Function.comp, hpk, if_false] at he
      exact he ▸ List.mem_map_of_mem Prod.fst hp
  · rw [List.map_append] at h
    rcases List.mem_append.mp h with h1 | h2
    · exact Or.inl h1
    · right
      simpa using h2

/-- Every key added by the inner column loop has the
`(board, column, team)` shape for one of the board's columns. -/
theorem keys_addBoardCols (bn tn : String) (cols : List (String × Bool))
    (m : SplitMap) (k' : String × String × String)
    (h : k' ∈ (addBoardCols bn tn m cols).map Prod.fst) :
    k' ∈ m.map Prod.fst
      ∨ ∃ c ∈ cols,
          k' = (trimStr (strLower bn), trimStr (strLower c.1), trimStr (strLower tn)) := by
  induction cols generalizing m with
  | nil => exact Or.inl h
  | cons c cs ih =>
    rcases ih _ h with hm | ⟨c', hc', he⟩
    · rcases keys_dictInsert _ _ _ _ hm with hm' | hk
      · exact Or.inl hm'
      · exact Or.inr ⟨c, List.mem_cons_self c cs, hk⟩
    · exact Or.inr ⟨c', List.mem_cons_of_mem c hc', he⟩

/-- Every key of the built split-column configuration has the
`(board, column, team)` shape for a board and column of one of the input
teams. -/
theorem keys_build_split_columns_from (teams : List (String × List Board))
    (m : SplitMap) (k' : String × String × String)
    (h : k' ∈ (build_split_columns_from m teams).map Prod.fst) :
    k' ∈ m.map Prod.fst
      ∨ ∃ tb ∈ teams, ∃ b ∈ tb.2, ∃ c ∈ b.columns,
          k' = (trimStr (strLower b.name), trimStr (strLower c.1),
            trimStr (strLower tb.1)) := by
  induction teams generalizing m with
  | nil => exact Or.inl h
  | cons tb rest ih =>
    simp only [build_split_columns_from] at h
    split at h
    · rename_i b hfind
      rcases ih _ h with hm | hshape
      · rcases keys_addBoardCols _ _ _ _ _ hm with hm' | ⟨c, hc, he⟩
        · exact Or.inl hm'
        · exact Or.inr ⟨tb, List.mem_cons_self tb rest,
            b, List.mem_of_find?_eq_some hfind, c, hc, he⟩
      · obtain ⟨tb', htb', rest'⟩ := hshape
        exact Or.inr ⟨tb', List.mem_cons_of_mem tb htb', rest'⟩
    · rcases ih _ h with hm | hshape
      · exact Or.inl hm
      · obtain ⟨tb', htb', rest'⟩ := hshape
        exact Or.inr ⟨tb', List.mem_cons_of_mem tb htb', rest'⟩

/-- C10 (confirmed).  The split-column configuration is built with keys of
the form `(board name, column name, team name)` (lowercased and
stripped), while SplitState lookups use `(new column, previous column,
area-path leaf)` keys — `(current column, current column, leaf)` for the
final interval; both lookup sites go through `splitStateOf`, and for any
key absent from the configuration `split_columns.get(key, False)` yields
`False`, so the emitted SplitState is the empty string. -/
theorem C10_split_state_default (teams : List (String × List Board))
    (key : String × String × String) (done : Bool)
    (habs : (build_split_columns teams).lookup key = none) :
    splitStateOf (build_split_columns teams) key done = ""
      ∧ ∀ k ∈ (build_split_columns teams).map Prod.fst,
          ∃ tb ∈ teams, ∃ b ∈ tb.2, ∃ c ∈ b.columns,
            k = (trimStr (strLower b.name), trimStr (strLower c.1),
              trimStr (strLower tb.1)) := by
  constructor
  · simp [splitStateOf, habs]
  · intro k hk
    rcases keys_build_split_columns_from teams [] k hk with hm | hshape
    · simp at hm
    · exact hshape

/-- C10, witness: a configuration with one team and one `Features` board
never marks an interval whose lookup key is absent; here the loop-style
lookup key `("done", "doing", "teama")` (new column, previous column,
area leaf) misses the configuration built from board key
`("features", ...)`, and SplitState is empty. -/
theorem C10_witness :
    splitStateOf
      (build_split_columns [("TeamA", [⟨"Features", [("Doing", true)]⟩])])
      ("done", "doing", "teama") true = "" :=
  (C10_split_state_default [("TeamA", [⟨"Features", [("Doing", true)]⟩])]
    ("done", "doing", "teama") true (by decide)).1

/-! ## C3: event multiplicities per tag group -/

/-- Membership in the BLOCKED-prefixed sub-list of a tag set. -/
theorem mem_blocked_filter (l : List String) (t : String)
    (ht : strStartsWith t "BLOCKED" = true) :
    t ∈ l.filter (fun s => strStartsWith s "BLOCKED") ↔ t ∈ l := by
  simp [List.mem_filter, ht]

/-- The PAUSED part of the event list, characterised by membership of
`"PAUSED"` in the two tag sets. -/
theorem pausedEvents_eq (cur prev : List String) :
    pausedEvents cur prev =
      if "PAUSED" ∈ cur ∧ "PAUSED" ∉ prev then [("PAUSED", Action.added)]
      else if "PAUSED" ∈ prev ∧ "PAUSED" ∉ cur then [("PAUSED", Action.removed)]
      else [] := by
  by_cases hcu : "PAUSED" ∈ cur
  all_goals by_cases hpr : "PAUSED" ∈ prev
  all_goals simp [pausedEvents, hcu, hpr, List.elem_iff]

/-- Every PAUSED event is keyed by the tag `"PAUSED"`. -/
theorem pausedEvents_fst (cur prev : List String) :
    ∀ e ∈ pausedEvents cur prev, e.1 = "PAUSED" := by
  rw [pausedEvents_eq]
  intro e he
  split at he
  · simp only [List.mem_singleton] at he
    rw [he]
  · split at he
    · simp only [List.mem_singleton] at he
      rw [he]
    · simp at he

/-- Counts of BLOCKED events in the per-pair event list: one `Added` per
newly present BLOCKED tag, one `Removed` per newly absent one. -/
theorem eventsFor_count_blocked (cur prev : List String)
    (hc : cur.Nodup) (hp : prev.Nodup) (t : String)
    (ht : strStartsWith t "BLOCKED" = true) :
    (eventsFor cur prev).count (t, Action.added)
        = (if t ∈ cur ∧ t ∉ prev then 1 else 0)
      ∧ (eventsFor cur prev).count (t, Action.removed)
        = (if t ∈ prev ∧ t ∉ cur then 1 else 0) := by
  have htp : t ≠ "PAUSED" := by
    intro h
    rw [h] at ht
    exact absurd ht (by decide)
  unfold eventsFor
  set curB := cur.filter (fun s => strStartsWith s "BLOCKED") with hcurB
  set prevB := prev.filter (fun s => strStartsWith s "BLOCKED") with hprevB
  have hcB : curB.Nodup := hc.filter _
  have hpB : prevB.Nodup := hp.filter _
  have haddedNd : (curB.filter (fun s => ¬ prevB.contains s)).Nodup := hcB.filter _
  have hremNd : (prevB.filter (fun s => ¬ curB.contains s)).Nodup := hpB.filter _
  have hmemAdd : t ∈ curB.filter (fun s => ¬ prevB.contains s) ↔ (t ∈ cur ∧ t ∉ prev) := by
    simp only [List.mem_filter, hcurB, hprevB, List.elem_iff, decide_not,
      Bool.not_eq_true', decide_eq_false_iff_not]
    constructor
    · rintro ⟨⟨h1, _⟩, h2⟩
      exact ⟨h1, fun hmem => h2 ⟨hmem, ht⟩⟩
    · rintro ⟨h1, h2⟩
      exact ⟨⟨h1, ht⟩, fun hmem => h2 hmem.1⟩
  have hmemRem : t ∈ prevB.filter (fun s => ¬ curB.contains s) ↔ (t ∈ prev ∧ t ∉ cur) := by
    simp only [List.mem_filter, hcurB, hprevB, List.elem_iff, decide_not,
      Bool.not_eq_true', decide_eq_false_iff_not]
    constructor
    · rintro ⟨⟨h1, _⟩, h2⟩
      exact ⟨h1, fun hmem => h2 ⟨hmem, ht⟩⟩
    · rintro ⟨h1, h2⟩
      exact ⟨⟨h1, ht⟩, fun hmem => h2 hmem.1⟩
  have hcount : ∀ (l : List String) (hnd : l.Nodup) (a : Action),
      (l.map (fun s => (s, a))).count (t, a) = (if t ∈ l then 1 else 0) := by
    intro l hnd a
    induction l with
    | nil => simp
    | cons x xs ih =>
      rcases List.nodup_cons.mp hnd with ⟨hx, hxs⟩
      simp only [List.map_cons, List.count_cons, ih hxs]
      by_cases hxt : t = x
      · subst hxt
        simp [hx]
      · simp [hxt, Ne.symm hxt, List.mem_cons, Prod.ext_iff]
  have hcount0 : ∀ (l : List String) (a a' : Action), a ≠ a' →
      (l.map (fun s => (s, a))).count (t, a') = 0 := by
    intro l a a' hne
    apply List.count_eq_zero_of_not_mem
    intro hmem
    obtain ⟨s, _, he⟩ := List.mem_map.mp hmem
    exact hne (congrArg Prod.snd he)
  have hcountP : ∀ (a : Action), (pausedEvents cur prev).count (t, a) = 0 := by
    intro a
    apply List.count_eq_zero_of_not_mem
    intro hmem
    exact htp (pausedEvents_fst cur prev _ hmem)
  constructor
  · rw [List.count_append, List.count_append, hcount _ haddedNd _,
      hcount0 _ _ _ (by decide), hcountP]
    simp only [hmemAdd, Nat.add_zero, Nat.zero_add]
  · rw [List.count_append, List.count_append, hcount0 _ _ _ (by decide),
      hcount _ hremNd _, hcountP]
    simp only [hmemRem, Nat.add_zero, Nat.zero_add]

/-- Counts of PAUSED events in the per-pair event list: at most one event
for the singleton group, `Added` exactly when PAUSED is newly present,
`Removed` exactly when newly absent. -/
theorem eventsFor_count_paused (cur prev : List String) :
    (eventsFor cur prev).count ("PAUSED", Action.added)
        = (if "PAUSED" ∈ cur ∧ "PAUSED" ∉ prev then 1 else 0)
      ∧ (eventsFor cur prev).count ("PAUSED", Action.removed)
        = (if "PAUSED" ∈ prev ∧ "PAUSED" ∉ cur then 1 else 0)
      ∧ (eventsFor cur prev).countP (fun e => e.1 == "PAUSED") ≤ 1 := by
  have hmap0 : ∀ (l l' : List String) (a b : Action),
      ((((l.filter (fun s => strStartsWith s "BLOCKED")).filter
        (fun s => ¬ l'.contains s)).map (fun s => (s, a))).count ("PAUSED", b)) = 0 := by
    intro l l' a b
    apply List.count_eq_zero_of_not_mem
    intro hmem
    obtain ⟨s, hs, he⟩ := List.mem_map.mp hmem
    have hsB : strStartsWith s "BLOCKED" = true :=
      (List.mem_filter.mp (List.mem_filter.mp hs).1).2
    have hsP : s = "PAUSED" := congrArg Prod.fst he
    rw [hsP] at hsB
    exact absurd hsB (by decide)
  have hmapP0 : ∀ (l l' : List String) (a : Action),
      ((((l.filter (fun s => strStartsWith s "BLOCKED")).filter
        (fun s => ¬ l'.contains s)).map (fun s => (s, a))).countP
          (fun e => e.1 == "PAUSED")) = 0 := by
    intro l l' a
    apply List.countP_eq_zero.mpr
    intro e hmem
    obtain ⟨s, hs, he⟩ := List.mem_map.mp hmem
    have hsB : strStartsWith s "BLOCKED" = true :=
      (List.mem_filter.mp (List.mem_filter.mp hs).1).2
    intro habs
    have hsP : e.1 = "PAUSED" := by simpa using habs
    rw [← he] at hsP
    simp only at hsP
    rw [hsP] at hsB
    exact absurd hsB (by decide)
  unfold eventsFor
  refine ⟨?_, ?_, ?_⟩
  · rw [List.count_append, List.count_append, hmap0, hmap0, pausedEvents_eq]
    split_ifs with h1 h2
    all_goals first
      | exact absurd h2.1 h1.2
      | decide
  · rw [List.count_append, List.count_append, hmap0, hmap0, pausedEvents_eq]
    split_ifs with h1 h2
    all_goals first
      | exact absurd h2.1 h1.2
      | decide
  · rw [List.countP_append, List.countP_append, hmapP0, hmapP0, pausedEvents_eq]
    split_ifs with h1 h2
    all_goals first
      | exact absurd h2.1 h1.2
      | decide

/-- C3 (confirmed).  For every consecutive pair of ingested tag sets, the
extractor emits exactly one `Added` event per BLOCKED-group tag in
`current − previous` and one `Removed` event per BLOCKED-group tag in
`previous − current`; for the PAUSED singleton group it emits at most one
event, `Added` exactly when PAUSED is newly present and `Removed` exactly
when newly absent (the `Added` branch of the tie-break is tested first). -/
theorem C3_event_multiplicities (a b t : String) :
    (strStartsWith t "BLOCKED" = true →
        (eventsFor (tagSetOf a) (tagSetOf b)).count (t, Action.added)
            = (if t ∈ tagSetOf a ∧ t ∉ tagSetOf b then 1 else 0)
          ∧ (eventsFor (tagSetOf a) (tagSetOf b)).count (t, Action.removed)
            = (if t ∈ tagSetOf b ∧ t ∉ tagSetOf a then 1 else 0))
      ∧ (eventsFor (tagSetOf a) (tagSetOf b)).count ("PAUSED", Action.added)
          = (if "PAUSED" ∈ tagSetOf a ∧ "PAUSED" ∉ tagSetOf b then 1 else 0)
      ∧ (eventsFor (tagSetOf a) (tagSetOf b)).count ("PAUSED", Action.removed)
          = (if "PAUSED" ∈ tagSetOf b ∧ "PAUSED" ∉ tagSetOf a then 1 else 0)
      ∧ (eventsFor (tagSetOf a) (tagSetOf b)).countP (fun e => e.1 == "PAUSED") ≤ 1 :=
  ⟨fun ht =>
      eventsFor_count_blocked (tagSetOf a) (tagSetOf b)
        (List.nodup_dedup _) (List.nodup_dedup _) t ht,
    eventsFor_count_paused (tagSetOf a) (tagSetOf b)⟩

/-- C3, witness: the raw pair `previous = ""`, `current =
`"Blocked_X; Paused"` emits exactly one `BLOCKED_X` `Added` event. -/
theorem C3_witness :
    (eventsFor (tagSetOf "Blocked_X; Paused") (tagSetOf "")).count
      ("BLOCKED_X", Action.added) = 1 :=
  (((C3_event_multiplicities "Blocked_X; Paused" "" "BLOCKED_X").1
    (by decide)).1).trans (by decide)

/-! ## C2: the date window and the `prev_tags` baseline -/

/-- C2, counterexample.  The claim says `previousTagSet` is updated for
every revision, inside or outside the date window, the first revision
overall establishing the baseline.  In the code
(`blocked_paused.py` line 151) `continue` fires *before* the tag set is
read, so an out-of-window revision leaves `prev_tags` untouched.  Here a
revision at time 500 (window start 1000) carrying `BLOCKED_A` leaves the
state `none` — under the claim it would be `some {BLOCKED_A}` — and the
pair (out-of-window `BLOCKED_A`, in-window no-tags) emits no `Removed`
row, while under the claim it would. -/
theorem C2_counterexample :
    (bpLoop ctxBP0 none [mkRev 1 (some 500) "BLOCKED_A" "" false none]).2 = none
      ∧ (bpLoop ctxBP0 none [mkRev 1 (some 500) "BLOCKED_A" "" false none]).2
          ≠ some (tagSetOf "BLOCKED_A")
      ∧ process_revisions "1" "PROJ" [] [] 1000 none
          [mkRev 1 (some 500) "BLOCKED_A" "" false none,
            mkRev 2 (some 2000) "" "" false none] = [] := by
  refine ⟨rfl, by decide, by decide⟩

/-- C2, amended: the window filters state tracking as well as output — an
out-of-window revision is skipped entirely, updating neither the emitted
rows nor `prev_tags`; `prev_tags` after the loop is the tag set of the
*last in-window* revision (so the baseline is the first in-window
revision, not the first revision overall). -/
theorem C2_window_filters_state (ctx : BpCtx) :
    (∀ (prev : Option (List String)) (r : Rev) (rest : List Rev),
        inWindow ctx.start_iso r = false →
        bpLoop ctx prev (r :: rest) = bpLoop ctx prev rest)
      ∧ (∀ (prev : Option (List String)) (revs : List Rev),
          (bpLoop ctx prev revs).2 =
            revs.foldl
              (fun acc r =>
                if inWindow ctx.start_iso r then some (tagSetOf r.tags) else acc)
              prev) := by
  have hskip : ∀ (prev : Option (List String)) (r : Rev) (rest : List Rev),
      inWindow ctx.start_iso r = false →
      bpLoop ctx prev (r :: rest) = bpLoop ctx prev rest := by
    intro prev r rest hw
    simp only [bpLoop]
    cases hcd : r.changedDate with
    | none => rfl
    | some changed =>
      simp only [inWindow, hcd, decide_eq_false_iff_not, Nat.not_le] at hw
      simp only [if_pos hw]
  refine ⟨hskip, ?_⟩
  intro prev revs
  induction revs generalizing prev with
  | nil => rfl
  | cons r rest ih =>
    by_cases hw : inWindow ctx.start_iso r = true
    · rw [List.foldl_cons, if_pos hw]
      obtain ⟨changed, hcd⟩ : ∃ c, r.changedDate = some c := by
        cases hcd : r.changedDate with
        | none => simp [inWindow, hcd] at hw
        | some c => exact ⟨c, rfl⟩
      have hle : ¬ changed < ctx.start_iso := by
        simp only [inWindow, hcd, decide_eq_true_eq] at hw
        omega
      simp only [bpLoop, hcd, if_neg hle]
      cases prev with
      | none => exact ih _
      | some p => exact ih _
    · rw [hskip prev r rest (Bool.not_eq_true _ ▸ hw), List.foldl_cons,
        if_neg hw]
      exact ih prev

/-- C2, witness: the skip clause of the amended statement at a concrete
dateless revision, and the final state over a concrete window. -/
theorem C2_witness :
    bpLoop ctxBP0 (some ["X"]) [mkRev 3 none "" "" false none]
      = bpLoop ctxBP0 (some ["X"]) [] :=
  (C2_window_filters_state ctxBP0).1 (some ["X"])
    (mkRev 3 none "" "" false none) [] (by decide)

/-! ## C5: never-closed items and interval counts -/

/-- Unfolding of the valid-revision chain over a cons. -/
theorem dwellChain_cons (r : Rev) (rest : List Rev) :
    dwellChain (r :: rest) =
      if validRev r then (r.boardColumn, r.boardColumnDone) :: dwellChain rest
      else dwellChain rest := by
  simp only [dwellChain, List.filter_cons]
  split
  · rw [List.map_cons]
  · rfl

/-- From an open state, the dwell loop emits one interval per adjacent
change along the valid chain. -/
theorem dwellLoop_length_some (ctx : WcCtx) (revs : List Rev) (s : DwellState) :
    ((dwellLoop ctx (some s) revs).1).length
      = countCh (s.col, s.done) (dwellChain revs) := by
  induction revs generalizing s with
  | nil => rfl
  | cons r rest ih =>
    rw [dwellChain_cons]
    cases hcd : r.changedDate with
    | none =>
      have hv : validRev r = false := by
        simp [validRev, hcd]
      simp only [dwellLoop, hcd, hv, Bool.false_eq_true, if_false]
      exact ih s
    | some cd =>
      by_cases hcol : r.boardColumn = ""
      · have hv : validRev r = false := by
          simp [validRev, hcol]
        simp only [dwellLoop, hcd, if_pos hcol, hv, Bool.false_eq_true, if_false]
        exact ih s
      · have hv : validRev r = true := by
          simp [validRev, hcol, hcd]
        simp only [dwellLoop, hcd, if_neg hcol, hv, if_true]
        by_cases hch : r.boardColumn ≠ s.col ∨ r.boardColumnDone ≠ s.done
        · have hne : ((r.boardColumn, r.boardColumnDone) : String × Bool) ≠ (s.col, s.done) := by
            simp only [ne_eq, Prod.mk.injEq, not_and]
            intro h1
            rcases hch with h | h
            · exact absurd h1 h
            · intro h2
              exact h h2
          rw [if_pos hch]
          simp only [List.length_cons, countCh, if_pos hne, ih]
          omega
        · have heq : ((r.boardColumn, r.boardColumnDone) : String × Bool) = (s.col, s.done) := by
            push_neg at hch
            rw [hch.1, hch.2]
          rw [if_neg hch]
          simp only [countCh, heq, ne_eq, not_true_eq_false, if_false]
          rw [ih]
          simp [heq]

/-- From the initial (unset) state, the dwell loop emits one interval per
adjacent change along the valid chain after its first element. -/
theorem dwellLoop_length_none (ctx : WcCtx) (revs : List Rev) :
    ((dwellLoop ctx none revs).1).length =
      (match dwellChain revs with
       | [] => 0
       | p :: ps => countCh p ps) := by
  induction revs with
  | nil => rfl
  | cons r rest ih =>
    rw [dwellChain_cons]
    cases hcd : r.changedDate with
    | none =>
      have hv : validRev r = false := by
        simp [validRev, hcd]
      simp only [dwellLoop, hcd, hv, Bool.false_eq_true, if_false]
      exact ih
    | some cd =>
      by_cases hcol : r.boardColumn = ""
      · have hv : validRev r = false := by
          simp [validRev, hcol]
        simp only [dwellLoop, hcd, if_pos hcol, hv, Bool.false_eq_true, if_false]
        exact ih
      · have hv : validRev r = true := by
          simp [validRev, hcol, hcd]
        simp only [dwellLoop, hcd, if_neg hcol, hv, if_true]
        exact dwellLoop_length_some ctx rest ⟨r.boardColumn, dtOf cd, r.boardColumnDone⟩

/-- Along a chain with no two adjacent equal states, every step counts. -/
theorem countCh_of_chain' (l : List (String × Bool)) (p : String × Bool)
    (h : List.Chain' (fun a b => a ≠ b) (p :: l)) :
    countCh p l = l.length := by
  induction l generalizing p with
  | nil => rfl
  | cons q rest ih =>
    rw [List.chain'_cons] at h
    simp only [countCh, if_pos (Ne.symm h.1), List.length_cons]
    rw [ih q h.2]
    omega

/-- The valid chain has one entry per valid revision. -/
theorem dwellChain_length (revs : List Rev) :
    (dwellChain revs).length = (revs.filter validRev).length := by
  simp [dwellChain]

/-- C5, amended: for a work item with no closing date the trailing open
interval is never emitted — the output is exactly the loop's bounded
intervals — and the item yields `N − 1` bounded intervals for `N` valid
(column- and date-carrying) revisions *provided every valid revision
after the first differs from its predecessor in column or done-flag*;
otherwise unchanged steps emit nothing and the count is lower. -/
theorem C5_never_closed (ctx : WcCtx) (revs : List Rev)
    (hc : ctx.closed_raw = none) :
    columnBlocks ctx revs = (dwellLoop ctx none revs).1
      ∧ (List.Chain' (fun a b => a ≠ b) (dwellChain revs) →
          (columnBlocks ctx revs).length = (revs.filter validRev).length - 1) := by
  have h1 : columnBlocks ctx revs = (dwellLoop ctx none revs).1 := by
    simp only [columnBlocks, hc]
    cases (dwellLoop ctx none revs).2 with
    | none => simp
    | some s => simp
  refine ⟨h1, ?_⟩
  intro hch
  rw [h1, dwellLoop_length_none, ← dwellChain_length]
  cases hchain : dwellChain revs with
  | nil => rfl
  | cons p ps =>
    rw [hchain] at hch
    show countCh p ps = (p :: ps).length - 1
    rw [countCh_of_chain' ps p hch]
    simp

/-- C5, counterexample.  The claim says a never-closed item yields `N − 1`
bounded intervals for `N` valid revisions.  Two valid revisions in the
same column with the same done-flag (`N = 2`) yield zero intervals, not
one: the loop emits only on a column/done-flag change. -/
theorem C5_counterexample :
    processItemWC "PROJ" "1" [] [] []
        [mkRev 1 (some 100) "" "A" false none,
          mkRev 2 (some 200) "" "A" false none] = []
      ∧ ([mkRev 1 (some 100) "" "A" false none,
          mkRev 2 (some 200) "" "A" false none].filter validRev).length = 2 := by
  refine ⟨by decide, by decide⟩

/-- C5, witness: two valid revisions in different columns of a
never-closed item yield exactly `2 − 1 = 1` bounded interval. -/
theorem C5_witness :
    (columnBlocks ctxWC0 [mkRev 1 (some 100) "" "A" false none,
        mkRev 2 (some 200) "" "B" false none]).length
      = ([mkRev 1 (some 100) "" "A" false none,
          mkRev 2 (some 200) "" "B" false none].filter validRev).length - 1 :=
  (C5_never_closed ctxWC0
    [mkRev 1 (some 100) "" "A" false none,
      mkRev 2 (some 200) "" "B" false none] rfl).2 (by
        show List.Chain' (fun a b => (a : String × Bool) ≠ b)
          [("A", false), ("B", false)]
        exact List.chain'_cons.mpr ⟨by decide, List.chain'_singleton _⟩)

/-! ## C6: duration round-trip for closed items -/

/-- Total duration of an empty interval list. -/
theorem sumDur_nil : sumDur [] = 0 := rfl

/-- Total duration of a cons. -/
theorem sumDur_cons (x : WcRow) (l : List WcRow) :
    sumDur (x :: l) = (x.endTs - x.startTs) + sumDur l := by
  simp [sumDur]

/-- Total duration of an append. -/
theorem sumDur_append (l₁ l₂ : List WcRow) :
    sumDur (l₁ ++ l₂) = sumDur l₁ + sumDur l₂ := by
  simp [sumDur]

/-- From an open state, the dwell loop's emitted durations telescope: they
sum to the final entry timestamp minus the initial one, the final state is
still open, and a non-empty current column stays non-empty. -/
theorem dwellLoop_sum_some (ctx : WcCtx) (revs : List Rev) (s : DwellState) :
    ∃ s', (dwellLoop ctx (some s) revs).2 = some s'
      ∧ sumDur ((dwellLoop ctx (some s) revs).1) = s'.entry - s.entry
      ∧ (s.col ≠ "" → s'.col ≠ "") := by
  induction revs generalizing s with
  | nil => exact ⟨s, rfl, by simp [sumDur, dwellLoop], fun h => h⟩
  | cons r rest ih =>
    cases hcd : r.changedDate with
    | none =>
      simp only [dwellLoop, hcd]
      exact ih s
    | some cd =>
      by_cases hcol : r.boardColumn = ""
      · simp only [dwellLoop, hcd, if_pos hcol]
        exact ih s
      · simp only [dwellLoop, hcd, if_neg hcol]
        by_cases hch : r.boardColumn ≠ s.col ∨ r.boardColumnDone ≠ s.done
        · rw [if_pos hch]
          obtain ⟨s', h2, hsum, hc'⟩ := ih ⟨r.boardColumn, dtOf cd, r.boardColumnDone⟩
          refine ⟨s', h2, ?_, fun _ => hc' hcol⟩
          rw [sumDur_cons, hsum]
          simp only [mkWcRow]
          omega
        · rw [if_neg hch]
          exact ih s
  
/-- From the unset state, the dwell loop's emitted durations telescope
from the first valid revision's timestamp to the final state's entry. -/
theorem dwellLoop_sum_none (ctx : WcCtx) (revs : List Rev) (v : Rev)
    (vs : List Rev) (hv : revs.filter validRev = v :: vs) :
    ∃ s', (dwellLoop ctx none revs).2 = some s'
      ∧ sumDur ((dwellLoop ctx none revs).1)
          = s'.entry - dtOf (v.changedDate.getD 0)
      ∧ s'.col ≠ "" := by
  induction revs with
  | nil => simp at hv
  | cons r rest ih =>
    by_cases hvr : validRev r = true
    · rw [List.filter_cons, if_pos hvr, List.cons.injEq] at hv
      obtain ⟨cd, hcd⟩ : ∃ c, r.changedDate = some c := by
        cases hcd : r.changedDate with
        | none => simp [validRev, hcd] at hvr
        | some c => exact ⟨c, rfl⟩
      have hcol : ¬ r.boardColumn = "" := by
        intro h
        simp [validRev, h] at hvr
      simp only [dwellLoop, hcd, if_neg hcol]
      obtain ⟨s', h2, hsum, hc'⟩ :=
        dwellLoop_sum_some ctx rest ⟨r.boardColumn, dtOf cd, r.boardColumnDone⟩
      refine ⟨s', h2, ?_, hc' hcol⟩
      rw [hsum, ← hv.1, hcd]
      rfl
    · rw [List.filter_cons, if_neg hvr] at hv
      cases hcd : r.changedDate with
      | none =>
        simp only [dwellLoop, hcd]
        exact ih hv
      | some cd =>
        have hcol : r.boardColumn = "" := by
          by_contra hc'
          exact hvr (by simp [validRev, hc', hcd])
        simp only [dwellLoop, hcd, if_pos hcol]
        exact ih hv

/-- C6 (confirmed).  For a closed work item (a closing date is present)
with at least one valid revision, the durations (`End − Start`) of all
emitted dwell intervals — the loop's bounded intervals plus the final
closing-date-bounded one — sum exactly to the parsed closing date minus
the first valid revision's parsed timestamp; skipped (column- or
date-missing) revisions do not disturb the telescoping. -/
theorem C6_duration_sum (ctx : WcCtx) (revs : List Rev) (c : Nat)
    (v : Rev) (vs : List Rev)
    (hc : ctx.closed_raw = some c)
    (hv : revs.filter validRev = v :: vs) :
    sumDur (columnBlocks ctx revs) = dtOf c - dtOf (v.changedDate.getD 0) := by
  obtain ⟨s', h2, hsum, hcol⟩ := dwellLoop_sum_none ctx revs v vs hv
  simp only [columnBlocks, hc, h2]
  rw [if_pos hcol, sumDur_append, hsum, sumDur_cons, sumDur_nil]
  simp only [mkWcRow]
  omega

/-- C6, witness: a closed item (closing date 500) whose valid revisions
are at times 100 (column A) and 200 (column B): the two emitted intervals
sum to `dtOf 500 − dtOf 100`. -/
theorem C6_witness :
    sumDur (columnBlocks ctxWC1
        [mkRev 1 (some 100) "" "A" false none,
          mkRev 2 (some 200) "" "B" false none])
      = dtOf 500 - dtOf ((mkRev 1 (some 100) "" "A" false none).changedDate.getD 0) :=
  C6_duration_sum ctxWC1
    [mkRev 1 (some 100) "" "A" false none,
      mkRev 2 (some 200) "" "B" false none] 500
    (mkRev 1 (some 100) "" "A" false none)
    [mkRev 2 (some 200) "" "B" false none] rfl (by decide)

/-! ## C8: interval bounds -/

/-- `dateLe` is transitive. -/
theorem dateLe_trans (a b c : Option Nat) (hab : dateLe a b = true)
    (hbc : dateLe b c = true) : dateLe a c = true := by
  cases a with
  | none => rfl
  | some x =>
    cases b with
    | none => simp [dateLe] at hab
    | some y =>
      cases c with
      | none => simp [dateLe] at hbc
      | some z =>
        simp only [dateLe, decide_eq_true_eq] at *
        omega

/-- `dateLe` is total. -/
theorem dateLe_total (a b : Option Nat) :
    dateLe a b = true ∨ dateLe b a = true := by
  cases a with
  | none => exact Or.inl rfl
  | some x =>
    cases b with
    | none => exact Or.inr rfl
    | some y =>
      simp only [dateLe, decide_eq_true_eq]
      omega

/-- The date-sorted timeline is pairwise ordered by the ChangedDate key. -/
theorem sortRevsWC_sorted (l : List Rev) :
    (sortRevsWC l).Pairwise
      (fun a b => dateLe a.changedDate b.changedDate = true) := by
  haveI : IsTotal Rev (fun a b => dateLe a.changedDate b.changedDate = true) :=
    ⟨fun a b => dateLe_total _ _⟩
  haveI : IsTrans Rev (fun a b => dateLe a.changedDate b.changedDate = true) :=
    ⟨fun a b c => dateLe_trans _ _ _⟩
  exact List.sorted_insertionSort _ l

/-- Sorting the timeline permutes it. -/
theorem sortRevsWC_perm (l : List Rev) : (sortRevsWC l).Perm l :=
  List.perm_insertionSort _ l

/-- The last element of a non-empty list, with fallback, is a member. -/
theorem getLastD_mem_cons (a : Rev) (as : List Rev) (d : Rev) :
    (a :: as).getLastD d ∈ a :: as := by
  rw [List.getLastD_eq_getLast?, List.getLast?_eq_getLast (a :: as) (by simp)]
  simp only [Option.getD_some]
  exact List.getLast_mem _

/-- From an open state whose entry timestamp precedes every remaining
dated revision, every emitted interval of the dwell loop is bounded
(`Start ≤ End`), and the final entry timestamp is the initial one or one
of the revisions' parsed timestamps. -/
theorem dwellLoop_bounds (ctx : WcCtx) (revs : List Rev) (s : DwellState)
    (hpw : revs.Pairwise (fun a b => dateLe a.changedDate b.changedDate = true))
    (hentry : ∀ r ∈ revs, ∀ cd, r.changedDate = some cd → s.entry ≤ dtOf cd) :
    (∀ row ∈ (dwellLoop ctx (some s) revs).1, row.startTs ≤ row.endTs)
      ∧ (∀ s', (dwellLoop ctx (some s) revs).2 = some s' →
          s' = s ∨ ∃ r ∈ revs, ∃ cd, r.changedDate = some cd ∧ s'.entry = dtOf cd) := by
  induction revs generalizing s with
  | nil =>
    constructor
    · intro row h
      simp [dwellLoop] at h
    · intro s' h
      simp only [dwellLoop, Option.some.injEq] at h
      exact Or.inl h.symm
  | cons r rest ih =>
    have hpw' := (List.pairwise_cons.mp hpw).2
    have hhead := (List.pairwise_cons.mp hpw).1
    cases hcd : r.changedDate with
    | none =>
      simp only [dwellLoop, hcd]
      obtain ⟨hb, ho⟩ := ih s hpw'
        (fun r' hr' cd hcd' => hentry r' (List.mem_cons_of_mem r hr') cd hcd')
      refine ⟨hb, fun s' h => ?_⟩
      rcases ho s' h with h' | ⟨r', hr', cd, hcd', he⟩
      · exact Or.inl h'
      · exact Or.inr ⟨r', List.mem_cons_of_mem r hr', cd, hcd', he⟩
    | some cd =>
      by_cases hcol : r.boardColumn = ""
      · simp only [dwellLoop, hcd, if_pos hcol]
        obtain ⟨hb, ho⟩ := ih s hpw'
          (fun r' hr' cd' hcd' => hentry r' (List.mem_cons_of_mem r hr') cd' hcd')
        refine ⟨hb, fun s' h => ?_⟩
        rcases ho s' h with h' | ⟨r', hr', cd', hcd', he⟩
        · exact Or.inl h'
        · exact Or.inr ⟨r', List.mem_cons_of_mem r hr', cd', hcd', he⟩
      · simp only [dwellLoop, hcd, if_neg hcol]
        have hentry2 : ∀ r' ∈ rest, ∀ cd', r'.changedDate = some cd' →
            (dtOf cd : Int) ≤ dtOf cd' := by
          intro r' hr' cd' hcd'
          have := hhead r' hr'
          rw [hcd, hcd'] at this
          simp only [dateLe, decide_eq_true_eq] at this
          simp only [dtOf]
          omega
        by_cases hch : r.boardColumn ≠ s.col ∨ r.boardColumnDone ≠ s.done
        · rw [if_pos hch]
          obtain ⟨hb, ho⟩ := ih ⟨r.boardColumn, dtOf cd, r.boardColumnDone⟩ hpw' hentry2
          constructor
          · intro row hrow
            rcases List.mem_cons.mp hrow with hr | hr
            · rw [hr]
              simp only [mkWcRow]
              exact hentry r (List.mem_cons_self r rest) cd hcd
            · exact hb row hr
          · intro s' h
            rcases ho s' h with h' | ⟨r', hr', cd', hcd', he⟩
            · exact Or.inr ⟨r, List.mem_cons_self r rest, cd, hcd, by rw [h']⟩
            · exact Or.inr ⟨r', List.mem_cons_of_mem r hr', cd', hcd', he⟩
        · rw [if_neg hch]
          obtain ⟨hb, ho⟩ := ih s hpw'
            (fun r' hr' cd' hcd' => hentry r' (List.mem_cons_of_mem r hr') cd' hcd')
          refine ⟨hb, fun s' h => ?_⟩
          rcases ho s' h with h' | ⟨r', hr', cd', hcd', he⟩
          · exact Or.inl h'
          · exact Or.inr ⟨r', List.mem_cons_of_mem r hr', cd', hcd', he⟩

/-- From the unset state on a date-sorted timeline, every emitted interval
is bounded and the final entry timestamp is one of the revisions' parsed
timestamps. -/
theorem dwellLoop_bounds_none (ctx : WcCtx) (revs : List Rev)
    (hpw : revs.Pairwise (fun a b => dateLe a.changedDate b.changedDate = true)) :
    (∀ row ∈ (dwellLoop ctx none revs).1, row.startTs ≤ row.endTs)
      ∧ (∀ s', (dwellLoop ctx none revs).2 = some s' →
          ∃ r ∈ revs, ∃ cd, r.changedDate = some cd ∧ s'.entry = dtOf cd) := by
  induction revs with
  | nil =>
    constructor
    · intro row h
      simp [dwellLoop] at h
    · intro s' h
      simp [dwellLoop] at h
  | cons r rest ih =>
    have hpw' := (List.pairwise_cons.mp hpw).2
    have hhead := (List.pairwise_cons.mp hpw).1
    cases hcd : r.changedDate with
    | none =>
      simp only [dwellLoop, hcd]
      obtain ⟨hb, ho⟩ := ih hpw'
      refine ⟨hb, fun s' h => ?_⟩
      obtain ⟨r', hr', cd', hcd', he⟩ := ho s' h
      exact ⟨r', List.mem_cons_of_mem r hr', cd', hcd', he⟩
    | some cd =>
      by_cases hcol : r.boardColumn = ""
      · simp only [dwellLoop, hcd, if_pos hcol]
        obtain ⟨hb, ho⟩ := ih hpw'
        refine ⟨hb, fun s' h => ?_⟩
        obtain ⟨r', hr', cd', hcd', he⟩ := ho s' h
        exact ⟨r', List.mem_cons_of_mem r hr', cd', hcd', he⟩
      · simp only [dwellLoop, hcd, if_neg hcol]
        have hentry2 : ∀ r' ∈ rest, ∀ cd', r'.changedDate = some cd' →
            (dtOf cd : Int) ≤ dtOf cd' := by
          intro r' hr' cd' hcd'
          have := hhead r' hr'
          rw [hcd, hcd'] at this
          simp only [dateLe, decide_eq_true_eq] at this
          simp only [dtOf]
          omega
        obtain ⟨hb, ho⟩ :=
          dwellLoop_bounds ctx rest ⟨r.boardColumn, dtOf cd, r.boardColumnDone⟩
            hpw' hentry2
        constructor
        · exact hb
        · intro s' h
          rcases ho s' h with h' | ⟨r', hr', cd', hcd', he⟩
          · exact ⟨r, List.mem_cons_self r rest, cd, hcd, by rw [h']⟩
          · exact ⟨r', List.mem_cons_of_mem r hr', cd', hcd', he⟩

/-- Every interval emitted by the dwell loop plus final emission is
bounded, given a date-sorted timeline whose changed dates do not exceed
the closing date. -/
theorem columnBlocks_bounds (ctx : WcCtx) (revs : List Rev)
    (hpw : revs.Pairwise (fun a b => dateLe a.changedDate b.changedDate = true))
    (hclose : ∀ r ∈ revs, ∀ cd, r.changedDate = some cd →
        ∀ c, ctx.closed_raw = some c → cd ≤ c) :
    ∀ row ∈ columnBlocks ctx revs, row.startTs ≤ row.endTs := by
  intro row hrow
  simp only [columnBlocks] at hrow
  rcases List.mem_append.mp hrow with h | h
  · exact (dwellLoop_bounds_none ctx revs hpw).1 row h
  · rcases hst : (dwellLoop ctx none revs).2 with _ | s
    · rw [hst] at h
      simp at h
    · rcases hcr : ctx.closed_raw with _ | c
      · rw [hst, hcr] at h
        simp at h
      · rw [hst, hcr] at h
        change row ∈ (if s.col ≠ "" then
            [mkWcRow ctx s (strLower s.col, strLower s.col, areaKeyOf ctx.area)
              (dtOf c)]
          else []) at h
        by_cases hcol : s.col ≠ ""
        · rw [if_pos hcol] at h
          simp only [List.mem_singleton] at h
          obtain ⟨r, hr, cd, hcd, he⟩ :=
            (dwellLoop_bounds_none ctx revs hpw).2 s hst
          have hle : cd ≤ c := hclose r hr cd hcd c hcr
          rw [h]
          simp only [mkWcRow]
          rw [he]
          simp only [dtOf]
          omega
        · rw [if_neg hcol] at h
          simp at h

/-- C8, counterexample.  The claim says every emitted interval satisfies
`End ≥ Start`.  For a closed item whose ClosedDate (100) precedes its one
column-carrying revision's ChangedDate (1000000), the final
closing-date-bounded interval is emitted with `End < Start`; the code has
no guard for this. -/
theorem C8_counterexample :
    (processItemWC "PROJ" "1" [] [] []
        [mkRev 1 (some 1000000) "" "A" false (some 100)]).map
      (fun row => decide (row.startTs ≤ row.endTs)) = [false] := by
  decide

/-- C8, amended: every interval emitted by the dwell extractor satisfies
`EndTimestamp ≥ StartTimestamp` *provided* no revision's ChangedDate
exceeds any present ClosedDate (in particular the closing date used for
the final interval); the loop's own intervals are bounded thanks to the
ChangedDate sort alone, but the final interval's bound additionally needs
the closing date to be no earlier than the last column change. -/
theorem C8_interval_bounds (project wid : String) (prefs_map : PrefsMap)
    (all_teams : List String) (split_columns : SplitMap) (revs0 : List Rev)
    (hwf : ∀ r ∈ revs0, ∀ s ∈ revs0,
        cdLeClosed r.changedDate s.closedDate = true) :
    ∀ row ∈ processItemWC project wid prefs_map all_teams split_columns revs0,
      row.startTs ≤ row.endTs := by
  intro row hrow
  simp only [processItemWC] at hrow
  split at hrow
  · simp at hrow
  · rename_i hne
    split at hrow
    · simp at hrow
    · have hperm := sortRevsWC_perm revs0
      have hlastmem : (sortRevsWC revs0).getLastD default ∈ revs0 := by
        rcases hsv : sortRevsWC revs0 with _ | ⟨a, as⟩
        · rw [hsv] at hne
          simp at hne
        · have hmem2 : (a :: as).getLastD default ∈ sortRevsWC revs0 := by
            rw [hsv]
            exact getLastD_mem_cons a as default
          exact hperm.mem_iff.mp hmem2
      refine columnBlocks_bounds _ (sortRevsWC revs0) (sortRevsWC_sorted revs0)
        ?_ row hrow
      intro r hr cd hcd c hcr
      have hcr' : ((sortRevsWC revs0).getLastD default).closedDate = some c := hcr
      have hrmem : r ∈ revs0 := hperm.mem_iff.mp hr
      have := hwf r hrmem ((sortRevsWC revs0).getLastD default) hlastmem
      rw [hcd, hcr'] at this
      simpa [cdLeClosed] using this

/-- C8, witness: a well-formed closed item (dates 100 and 200, closing
date 300) has all emitted intervals bounded. -/
theorem C8_witness :
    (processItemWC "PROJ" "1" [] [] []
        [mkRev 1 (some 100) "" "A" false none,
          mkRev 2 (some 200) "" "B" false (some 300)]).all
      (fun row => decide (row.startTs ≤ row.endTs)) = true :=
  List.all_eq_true.mpr (fun row hrow =>
    decide_eq_true
      (C8_interval_bounds "PROJ" "1" [] [] []
        [mkRev 1 (some 100) "" "A" false none,
          mkRev 2 (some 200) "" "B" false (some 300)]
        (by decide) row hrow))

end Azure
